import Mathlib

/-!
Verification of the Salesforce → MongoDB sync middleware (`src/middleware.js`).

The middleware exposes three data endpoints:
* `POST /sync_prompt_versions` — bulk upsert of flat documents keyed on
  `promptVersionId` (`updateOne` with `$set` and `upsert: true`);
* `POST /delete_prompt_versions` — `deleteMany` of documents whose
  `promptVersionId` is `$in` the truthy ids of the payload;
* `POST /sync_member_dependencies` — two-phase snapshot reconciliation of the
  `MemberDependencies` collection: per-record upsert keyed on
  `parentMemberId` with deduplication of `dependentMembers` by
  `memberDependencyId`, followed by `deleteMany` of every document whose
  `parentMemberId` is `$nin` the payload's parent ids.

The embedding models BSON scalar values, documents as ordered association
lists (MongoDB preserves field order and `$set` appends new fields at the
end), a collection as an ordered list of documents (`updateOne` updates the
first matching document, `upsert` appends), and each endpoint as a pure
function from the request payload and the collection state to the response,
the new collection state, and the trace of store calls issued.
-/

namespace SfMongo

/-- Scalar BSON/JSON value. `null` also stands for a JavaScript `undefined`
that the driver serializes as BSON null. -/
inductive Value where
  | null : Value
  | str : String → Value
  | int : Int → Value
  | bool : Bool → Value
deriving DecidableEq

/-- JavaScript truthiness of a value (`filter(Boolean)`, `if (x)`). -/
def truthyV : Value → Bool
  | Value.null => false
  | Value.str s => !(s == "")
  | Value.int n => !(n == 0)
  | Value.bool b => b

/-- A document: ordered list of field/value pairs. -/
abbrev Doc := List (String × Value)

/-- Value of field `f`, reading the first occurrence. -/
def getField : Doc → String → Option Value
  | [], _ => none
  | (g, w) :: x, f => if g == f then some w else getField x f

/-- MongoDB `$set` of a single field: overwrite in place if present,
append at the end otherwise. -/
def setField : Doc → String → Value → Doc
  | [], f, v => [(f, v)]
  | (g, w) :: x, f, v => if g == f then (g, v) :: x else (g, w) :: setField x f v

/-- MongoDB `$set` with update document `u`: set each field of `u` in order. -/
def applyAll (x : Doc) (u : Doc) : Doc :=
  u.foldl (fun acc fv => setField acc fv.1 fv.2) x

/-- The field names of a document. -/
def keysOf (x : Doc) : List String := x.map Prod.fst

/-- Value of the last occurrence of field `f` (what a sequence of `$set`s
leaves behind). -/
def lookLast : Doc → String → Option Value
  | [], _ => none
  | (g, w) :: u, f =>
      match lookLast u f with
      | some v => some v
      | none => if g == f then some w else none

/-- The identity field of the flat sync endpoints: `promptVersionId`. -/
def promptKey : String := "promptVersionId"

/-- Match class of a document for the flat upsert filter
`{ promptVersionId: doc.promptVersionId }`: a missing field and an explicit
null fall in the same class, since the driver serializes an `undefined`
filter value as null and `{f: null}` matches both null and missing. -/
def clsOf (x : Doc) : Value :=
  match getField x promptKey with
  | none => Value.null
  | some v => v

/-- MongoDB `updateOne` with `upsert: true`, filter
`{ promptVersionId: doc.promptVersionId }` and update `{ $set: doc }`:
update the first matching document in place, or append a document built
from the filter equality plus the update. -/
def upsertDoc (s : List Doc) (d : Doc) : List Doc :=
  match s with
  | [] => [applyAll [(promptKey, clsOf d)] d]
  | x :: t => if clsOf x == clsOf d then applyAll x d :: t else x :: upsertDoc t d

/-- Ordered `bulkWrite` of the upsert operations built from the payload. -/
def applyOps (s : List Doc) (l : List Doc) : List Doc := l.foldl upsertDoc s

/-- A call issued against the store. -/
inductive Call where
  | connect : Call
  | bulkWrite : Nat → Call
  | deleteMany : Call
  | close : Call
deriving DecidableEq

/-- Response of the flat endpoints. -/
inductive PResp where
  | ok : Nat → PResp
  | clientError : PResp
deriving DecidableEq

/-- Endpoint `POST /sync_prompt_versions`. `payload = none` models a non-array body.
Returns the response, the new collection state, and the store-call trace. -/
def syncPromptVersions (store : List Doc) (payload : Option (List Doc)) :
    PResp × List Doc × List Call :=
  match payload with
  | none => (PResp.clientError, store, [])
  | some l =>
      if l.isEmpty then (PResp.clientError, store, [])
      else
        (PResp.ok l.length, applyOps store l,
          [Call.connect, Call.bulkWrite l.length, Call.close])

/-- Computes `payload.map(p => p.promptVersionId).filter(Boolean)`. -/
def truthyIds (l : List Doc) : List Value :=
  l.filterMap (fun d =>
    match getField d promptKey with
    | some v => if truthyV v then some v else none
    | none => none)

/-- Whether `{ promptVersionId: { $in: ids } }` matches a stored document.
A missing field never matches, since the ids list holds only truthy values. -/
def inIds (d : Doc) (ids : List Value) : Bool :=
  match getField d promptKey with
  | some v => ids.contains v
  | none => false

/-- Endpoint `POST /delete_prompt_versions`. The `deleteMany` call is only issued when
the truthy-id list is non-empty; the reported count is the id-list length. -/
def deletePromptVersions (store : List Doc) (payload : Option (List Doc)) :
    PResp × List Doc × List Call :=
  match payload with
  | none => (PResp.clientError, store, [])
  | some l =>
      if l.isEmpty then (PResp.clientError, store, [])
      else
        let ids := truthyIds l
        if ids.isEmpty then (PResp.ok ids.length, store, [Call.connect, Call.close])
        else
          (PResp.ok ids.length, store.filter (fun d => !(inIds d ids)),
            [Call.connect, Call.deleteMany, Call.close])

/-- First document of the collection matching a given filter class
(the document `updateOne` targets). -/
def firstMatch (s : List Doc) (c : Value) : Option Doc :=
  match s with
  | [] => none
  | x :: t => if clsOf x == c then some x else firstMatch t c

/-- The deduplication key of dependent sub-records: `memberDependencyId`. -/
def depKey : String := "memberDependencyId"

/-- JavaScript `Map.set`: overwrite the binding in place when the key is
present, append it otherwise (a `Map` preserves insertion order). -/
def mapSet (m : List (Value × Doc)) (k : Value) (d : Doc) : List (Value × Doc) :=
  match m with
  | [] => [(k, d)]
  | (g, e) :: t => if g == k then (k, d) :: t else (g, e) :: mapSet t k d

/-- JavaScript `Map.get`. -/
def mapGet (m : List (Value × Doc)) (k : Value) : Option Doc :=
  match m with
  | [] => none
  | (g, e) :: t => if g == k then some e else mapGet t k

/-- One iteration of `dependents.forEach`: entries whose
`memberDependencyId` is truthy are written into the map, all others are
skipped. -/
def dedupStep (m : List (Value × Doc)) (d : Doc) : List (Value × Doc) :=
  match getField d depKey with
  | some v => if truthyV v then mapSet m v d else m
  | none => m

/-- Function `uniqueDependents`: the values of the `uniqueDependentsMap` built from
the dependents in input order. -/
def uniqueDependents (ds : List Doc) : List Doc :=
  (ds.foldl dedupStep []).map Prod.snd

/-- The `parentMember` payload of an incoming record: its
`parentMemberId` plus arbitrary further fields. -/
structure ParentMember where
  parentMemberId : Option String
  rest : Doc
deriving DecidableEq

/-- Incoming record of `/sync_member_dependencies`. `parentMember = none`
models an absent or null `parentMember`; `dependentMembers = none` models an
absent, null, or otherwise non-array `dependentMembers` value. -/
structure SRecord where
  parentMember : Option ParentMember
  dependentMembers : Option (List Doc)
deriving DecidableEq

/-- Computes `doc.parentMember?.parentMemberId`, kept when truthy (matching both the
`filter(Boolean)` of phase 1 collection and the `if (!parentId)` guard of the
operation builder): absent, null and the empty string resolve to nothing. -/
def ridOf (r : SRecord) : Option String :=
  match r.parentMember with
  | some pm =>
      match pm.parentMemberId with
      | some s => if s == "" then none else some s
      | none => none
  | none => none

/-- Stored document of the `MemberDependencies` collection. The four fields
written by the sync are explicit; `extra` holds any further fields of a
pre-existing document, which `$set` leaves untouched. -/
structure MDoc where
  parentMemberId : Option String
  parentMember : Option ParentMember
  dependentMembers : Option (List Doc)
  lastSyncedAt : Option Nat
  extra : Doc
deriving DecidableEq

/-- MongoDB `updateOne` with filter `{ parentMemberId: parentId }`, update
`$set { parentMemberId, parentMember, dependentMembers, lastSyncedAt }` and
`upsert: true`: update the first matching document, or append a fresh one. -/
def upsertMD (s : List MDoc) (p : String) (pm : Option ParentMember)
    (dm : List Doc) (now : Nat) : List MDoc :=
  match s with
  | [] => [⟨some p, pm, some dm, some now, []⟩]
  | x :: t =>
      if x.parentMemberId == some p then
        { x with parentMemberId := some p, parentMember := pm,
                 dependentMembers := some dm, lastSyncedAt := some now } :: t
      else x :: upsertMD t p pm dm now

/-- The operation built for one record: records without a resolvable
`parentId` are dropped (`if (!parentId) return null` and `.filter(Boolean)`),
the others upsert with deduplicated dependents. -/
def stepMD (now : Nat) (s : List MDoc) (r : SRecord) : List MDoc :=
  match ridOf r with
  | some p => upsertMD s p r.parentMember
      (uniqueDependents (r.dependentMembers.getD [])) now
  | none => s

/-- The ordered `bulkWrite` of phase 1. -/
def runOps (now : Nat) (s : List MDoc) (l : List SRecord) : List MDoc :=
  l.foldl (stepMD now) s

/-- Response of the reconciliation endpoint: upserted and deleted counts. -/
inductive MResp where
  | ok : Nat → Nat → MResp
  | clientError : MResp
deriving DecidableEq

/-- Whether a stored document survives the phase-2
`deleteMany { parentMemberId: { $nin: pids } }`. A document with a missing
`parentMemberId` is deleted too: a missing value is not in the list. -/
def keptByNin (pids : List String) (m : MDoc) : Bool :=
  match m.parentMemberId with
  | some q => pids.contains q
  | none => false

/-- Number of stored documents whose `parentMemberId` equals `some p`. -/
def pCount (p : String) (s : List MDoc) : Nat :=
  (s.filter (fun m => m.parentMemberId == some p)).length

/-- Endpoint `POST /sync_member_dependencies`. `payload = none` models a non-array
body; `now` is the timestamp taken for `lastSyncedAt`. Returns the response,
the new collection state, and the store-call trace. -/
def syncMemberDependencies (now : Nat) (store : List MDoc)
    (payload : Option (List SRecord)) : MResp × List MDoc × List Call :=
  match payload with
  | none => (MResp.clientError, store, [])
  | some l =>
      if l.isEmpty then (MResp.clientError, store, [])
      else
        let pids := l.filterMap ridOf
        if pids.isEmpty then (MResp.clientError, store, [Call.connect, Call.close])
        else
          let s1 := runOps now store l
          let s2 := s1.filter (keptByNin pids)
          (MResp.ok pids.length (s1.length - s2.length), s2,
            [Call.connect, Call.bulkWrite pids.length, Call.deleteMany, Call.close])

@[simp] theorem getField_nil (f : String) : getField [] f = none := rfl

@[simp] theorem applyAll_nil (x : Doc) : applyAll x [] = x := rfl

theorem applyAll_cons (x : Doc) (g : String) (w : Value) (u : Doc) :
    applyAll x ((g, w) :: u) = applyAll (setField x g w) u := rfl

theorem applyAll_append (x : Doc) (u₁ u₂ : Doc) :
    applyAll x (u₁ ++ u₂) = applyAll (applyAll x u₁) u₂ := by
  simp [applyAll, List.foldl_append]

theorem getField_setField (x : Doc) (f g : String) (v : Value) :
    getField (setField x g v) f = if g == f then some v else getField x f := by
  induction x with
  | nil => simp [setField, getField]
  | cons hd tl ih =>
      obtain ⟨a, b⟩ := hd
      by_cases hag : a == g
      · simp only [setField, hag, if_pos]
        by_cases haf : a == f
        · have : (g == f) = true := by
            rw [beq_iff_eq] at hag haf ⊢
            rw [← hag, haf]
          simp [getField, haf, this]
        · have : ¬ (g == f) = true := by
            intro hgf
            rw [beq_iff_eq] at hag hgf
            exact haf (by rw [beq_iff_eq]; rw [hag, hgf])
          simp [getField, haf, this]
      · simp only [setField, hag, if_neg, Bool.not_eq_true]
        by_cases haf : a == f
        · have : ¬ (g == f) = true := by
            intro hgf
            rw [beq_iff_eq] at haf hgf
            exact hag (by rw [beq_iff_eq]; rw [haf, ← hgf])
          simp [getField, haf, this, ih]
        · simp [getField, haf, ih]

theorem setField_setField_same (x : Doc) (f : String) (v w : Value) :
    setField (setField x f v) f w = setField x f w := by
  induction x with
  | nil => simp [setField]
  | cons hd tl ih =>
      obtain ⟨a, b⟩ := hd
      by_cases haf : a == f
      · simp [setField, haf]
      · simp [setField, haf, ih]

theorem setField_of_getField_eq (x : Doc) (f : String) (v : Value)
    (h : getField x f = some v) : setField x f v = x := by
  induction x with
  | nil => simp [getField] at h
  | cons hd tl ih =>
      obtain ⟨a, b⟩ := hd
      by_cases haf : a == f
      · simp only [getField, haf, if_pos] at h
        obtain rfl : b = v := by injection h
        simp [setField, haf]
      · simp only [getField, haf] at h
        simp only [Bool.not_eq_true] at haf
        simp only [setField, haf]
        simp [ih (by simpa [haf] using h)]

theorem setField_comm (x : Doc) (f g : String) (v w : Value)
    (hfg : ¬ f = g) (hf : getField x f ≠ none) :
    setField (setField x f v) g w = setField (setField x g w) f v := by
  induction x with
  | nil => simp [getField] at hf
  | cons hd tl ih =>
      obtain ⟨a, b⟩ := hd
      by_cases haf : a == f
      · have hag : (a == g) = false := by
          rw [beq_iff_eq] at haf
          rw [Bool.eq_false_iff]
          intro hg
          rw [beq_iff_eq] at hg
          exact hfg (by rw [← haf, hg])
        simp [setField, haf, hag]
      · simp only [getField, haf] at hf
        simp only [Bool.not_eq_true] at haf
        by_cases hag : a == g
        · simp [setField, haf, hag]
        · simp only [Bool.not_eq_true] at hag
          simp only [setField, haf, hag, if_neg, Bool.false_eq_true, not_false_iff]
          rw [ih (by simpa [haf] using hf)]

theorem getField_present_setField (x : Doc) (f g : String) (v : Value)
    (h : getField x f ≠ none) : getField (setField x g v) f ≠ none := by
  rw [getField_setField]
  by_cases hgf : g == f <;> simp [hgf, h]

theorem keysOf_mem_of_getField (x : Doc) (f : String)
    (h : getField x f ≠ none) : f ∈ keysOf x := by
  induction x with
  | nil => simp [getField] at h
  | cons hd tl ih =>
      obtain ⟨a, b⟩ := hd
      by_cases haf : a == f
      · rw [beq_iff_eq] at haf
        simp [keysOf, haf]
      · simp only [getField, haf] at h
        simp only [Bool.not_eq_true] at haf
        have := ih (by simpa [haf] using h)
        simp [keysOf] at this ⊢
        exact Or.inr this

theorem getField_applyAll (x : Doc) (u : Doc) (f : String) :
    getField (applyAll x u) f =
      match lookLast u f with
      | some v => some v
      | none => getField x f := by
  induction u generalizing x with
  | nil => simp [lookLast]
  | cons hd tl ih =>
      obtain ⟨a, b⟩ := hd
      rw [applyAll_cons, ih]
      cases htl : lookLast tl f with
      | some v => simp [lookLast, htl]
      | none =>
          simp only [lookLast, htl]
          rw [getField_setField]
          by_cases haf : a == f <;> simp [haf]

theorem lookLast_eq_none_of_not_mem (u : Doc) (f : String)
    (h : f ∉ keysOf u) : lookLast u f = none := by
  induction u with
  | nil => rfl
  | cons hd tl ih =>
      obtain ⟨a, b⟩ := hd
      simp only [keysOf, List.map_cons, List.mem_cons, not_or] at h
      have haf : (a == f) = false := by
        rw [Bool.eq_false_iff]
        intro hx
        rw [beq_iff_eq] at hx
        exact h.1 hx.symm
      simp only [lookLast]
      rw [ih (by simpa [keysOf] using h.2), haf]
      simp

theorem lookLast_eq_getField_of_nodup (u : Doc) (f : String)
    (h : (keysOf u).Nodup) : lookLast u f = getField u f := by
  induction u with
  | nil => rfl
  | cons hd tl ih =>
      obtain ⟨a, b⟩ := hd
      simp only [keysOf, List.map_cons, List.nodup_cons] at h
      by_cases haf : a == f
      · rw [beq_iff_eq] at haf
        subst haf
        have : lookLast tl a = none :=
          lookLast_eq_none_of_not_mem tl a (by simpa [keysOf] using h.1)
        simp [lookLast, getField, this]
      · simp only [lookLast, getField, haf]
        rw [ih h.2]
        cases getField tl f <;> simp [haf]

theorem getField_applyAll_of_not_mem (x : Doc) (u : Doc) (f : String)
    (h : f ∉ keysOf u) : getField (applyAll x u) f = getField x f := by
  rw [getField_applyAll, lookLast_eq_none_of_not_mem u f h]

theorem getField_applyAll_of_nodup (x : Doc) (u : Doc) (f : String) (v : Value)
    (hnd : (keysOf u).Nodup) (h : getField u f = some v) :
    getField (applyAll x u) f = some v := by
  rw [getField_applyAll, lookLast_eq_getField_of_nodup u f hnd, h]

theorem getField_applyAll_ne_none (x : Doc) (u : Doc) (f : String)
    (h : getField x f ≠ none) : getField (applyAll x u) f ≠ none := by
  rw [getField_applyAll]
  cases lookLast u f <;> simp [h]

theorem applyAll_setField_of_mem (x : Doc) (u : Doc) (f : String) (v : Value)
    (hpres : getField x f ≠ none) (hmem : f ∈ keysOf u) :
    applyAll (setField x f v) u = applyAll x u := by
  induction u generalizing x with
  | nil => simp [keysOf] at hmem
  | cons hd tl ih =>
      obtain ⟨a, b⟩ := hd
      by_cases haf : a = f
      · subst haf
        rw [applyAll_cons, applyAll_cons, setField_setField_same]
      · have hmem' : f ∈ keysOf tl := by
          simp only [keysOf, List.map_cons, List.mem_cons] at hmem
          rcases hmem with h1 | h2
          · exact absurd h1.symm haf
          · simpa [keysOf] using h2
        rw [applyAll_cons, applyAll_cons]
        rw [setField_comm x f a v b (fun hq => haf hq.symm) hpres]
        exact ih (setField x a b) (getField_present_setField x f a b hpres) hmem'

theorem applyAll_applyAll_self (x : Doc) (u : Doc) :
    applyAll (applyAll x u) u = applyAll x u := by
  induction u generalizing x with
  | nil => rfl
  | cons hd tl ih =>
      obtain ⟨a, b⟩ := hd
      rw [applyAll_cons, applyAll_cons]
      by_cases hmem : a ∈ keysOf tl
      · rw [applyAll_setField_of_mem (applyAll (setField x a b) tl) tl a b _ hmem]
        · exact ih (setField x a b)
        · apply getField_applyAll_ne_none
          rw [getField_setField]
          simp
      · have hget : getField (applyAll (setField x a b) tl) a = some b := by
          rw [getField_applyAll_of_not_mem _ tl a hmem, getField_setField]
          simp
        rw [setField_of_getField_eq _ a b hget]
        exact ih (setField x a b)

theorem getField_ne_none_of_mem (x : Doc) (f : String)
    (h : f ∈ keysOf x) : getField x f ≠ none := by
  induction x with
  | nil => simp [keysOf] at h
  | cons hd tl ih =>
      obtain ⟨a, b⟩ := hd
      by_cases haf : a == f
      · simp [getField, haf]
      · simp only [keysOf, List.map_cons, List.mem_cons] at h
        rcases h with h1 | h2
        · rw [beq_iff_eq] at haf
          exact absurd h1.symm haf
        · have := ih (by simpa [keysOf] using h2)
          simpa [getField, haf] using this

theorem clsOf_applyAll_of_same (x d : Doc)
    (hnd : (keysOf d).Nodup) (h : clsOf d = clsOf x) :
    clsOf (applyAll x d) = clsOf x := by
  by_cases hmem : promptKey ∈ keysOf d
  · have hget : getField d promptKey ≠ none := getField_ne_none_of_mem d promptKey hmem
    cases hv : getField d promptKey with
    | none => exact absurd hv hget
    | some v =>
        have : getField (applyAll x d) promptKey = some v :=
          getField_applyAll_of_nodup x d promptKey v hnd hv
        rw [← h]
        simp [clsOf, this, hv]
  · have : getField (applyAll x d) promptKey = getField x promptKey :=
      getField_applyAll_of_not_mem x d promptKey hmem
    simp [clsOf, this]

theorem clsOf_upsertInit (d : Doc) (hnd : (keysOf d).Nodup) :
    clsOf (applyAll [(promptKey, clsOf d)] d) = clsOf d := by
  have h : clsOf d = clsOf [(promptKey, clsOf d)] := by
    simp [clsOf, getField]
  rw [h]
  exact clsOf_applyAll_of_same _ d hnd h

theorem clsOf_applyAll_join (x : Doc) (ds : List Doc)
    (h : ∀ e ∈ ds, clsOf e = clsOf x ∧ (keysOf e).Nodup) :
    clsOf (applyAll x ds.flatten) = clsOf x := by
  induction ds generalizing x with
  | nil => rfl
  | cons e rest ih =>
      rw [List.flatten_cons, applyAll_append]
      have he := h e (List.mem_cons_self e rest)
      have hcls : clsOf (applyAll x e) = clsOf x := clsOf_applyAll_of_same x e he.2 he.1
      rw [← hcls]
      exact ih (applyAll x e) (fun e' he' => by
        rw [hcls]
        exact h e' (List.mem_cons_of_mem e he'))

theorem applyOps_cons (x : Doc) (t l : List Doc)
    (hnd : ∀ d ∈ l, (keysOf d).Nodup) :
    applyOps (x :: t) l =
      applyAll x (l.filter (fun e => clsOf e == clsOf x)).flatten ::
        applyOps t (l.filter (fun e => !(clsOf e == clsOf x))) := by
  induction l generalizing x t with
  | nil => simp [applyOps]
  | cons d l' ih =>
      have hndd := hnd d (List.mem_cons_self d l')
      have hnd' : ∀ e ∈ l', (keysOf e).Nodup :=
        fun e he => hnd e (List.mem_cons_of_mem d he)
      have hfold : applyOps (x :: t) (d :: l') = applyOps (upsertDoc (x :: t) d) l' := rfl
      by_cases hcls : clsOf d = clsOf x
      · have hup : upsertDoc (x :: t) d = applyAll x d :: t := by
          simp [upsertDoc, hcls]
        rw [hfold, hup, ih (applyAll x d) t hnd']
        have hclsx : clsOf (applyAll x d) = clsOf x :=
          clsOf_applyAll_of_same x d hndd hcls
        rw [hclsx]
        have hpd : (clsOf d == clsOf x) = true := by rw [beq_iff_eq]; exact hcls
        simp only [List.filter_cons, hpd, Bool.not_true, if_true, if_false,
          Bool.false_eq_true, List.flatten_cons]
        rw [applyAll_append]
      · have hpd : (clsOf d == clsOf x) = false := by
          rw [Bool.eq_false_iff]
          intro hq
          rw [beq_iff_eq] at hq
          exact hcls hq
        have hup : upsertDoc (x :: t) d = x :: upsertDoc t d := by
          have hxd : (clsOf x == clsOf d) = false := by
            rw [Bool.eq_false_iff]
            intro hq
            rw [beq_iff_eq] at hq
            exact hcls hq.symm
          simp [upsertDoc, hxd]
        rw [hfold, hup, ih x (upsertDoc t d) hnd']
        simp only [List.filter_cons, hpd, Bool.not_false, if_true, if_false,
          Bool.false_eq_true]
        rfl

theorem applyOps_nil_idem : ∀ (n : Nat) (l : List Doc), l.length ≤ n →
    (∀ d ∈ l, (keysOf d).Nodup) →
    applyOps (applyOps [] l) l = applyOps [] l := by
  intro n
  induction n with
  | zero =>
      intro l hlen hnd
      have : l = [] := List.eq_nil_of_length_eq_zero (Nat.le_zero.mp hlen)
      subst this
      rfl
  | succ n ih =>
      intro l hlen hnd
      cases l with
      | nil => rfl
      | cons d l' =>
          have hndd := hnd d (List.mem_cons_self d l')
          have hnd' : ∀ e ∈ l', (keysOf e).Nodup :=
            fun e he => hnd e (List.mem_cons_of_mem d he)
          set b : Doc := applyAll [(promptKey, clsOf d)] d with hb
          have hclsb : clsOf b = clsOf d := clsOf_upsertInit d hndd
          have hstep : applyOps [] (d :: l') = applyOps [b] l' := rfl
          set U : Doc := (l'.filter (fun e => clsOf e == clsOf b)).flatten with hU
          set L1 : List Doc := l'.filter (fun e => !(clsOf e == clsOf b)) with hL1
          have hchar : applyOps [b] l' = applyAll b U :: applyOps [] L1 :=
            applyOps_cons b [] l' hnd'
          have hsame : ∀ e ∈ l'.filter (fun e => clsOf e == clsOf b),
              clsOf e = clsOf b ∧ (keysOf e).Nodup := by
            intro e he
            have hm := List.mem_filter.mp he
            exact ⟨by have := hm.2; rwa [beq_iff_eq] at this, hnd' e hm.1⟩
          have hclsU : clsOf (applyAll b U) = clsOf b := by
            rw [hU]
            exact clsOf_applyAll_join b _ hsame
          rw [hstep, hchar]
          have hfold : applyOps (applyAll b U :: applyOps [] L1) (d :: l') =
              applyOps (upsertDoc (applyAll b U :: applyOps [] L1) d) l' := rfl
          have hup2 : upsertDoc (applyAll b U :: applyOps [] L1) d =
              applyAll (applyAll b U) d :: applyOps [] L1 := by
            have hq : (clsOf (applyAll b U) == clsOf d) = true := by
              rw [beq_iff_eq, hclsU, hclsb]
            simp [upsertDoc, hq]
          rw [hfold, hup2]
          have hcls2 : clsOf (applyAll (applyAll b U) d) = clsOf b := by
            rw [clsOf_applyAll_of_same _ d hndd (by rw [hclsU, hclsb]), hclsU]
          rw [applyOps_cons (applyAll (applyAll b U) d) (applyOps [] L1) l' hnd']
          rw [hcls2, ← hU, ← hL1]
          congr 1
          · rw [hb]
            rw [← applyAll_append, ← applyAll_append, ← applyAll_append]
            have hassoc : d ++ (U ++ (d ++ U)) = (d ++ U) ++ (d ++ U) := by
              simp [List.append_assoc]
            rw [hassoc, applyAll_append, applyAll_applyAll_self, applyAll_append]
          · have hlen1 : L1.length ≤ n := by
              rw [hL1]
              exact le_trans (List.length_filter_le _ l') (Nat.le_of_succ_le_succ hlen)
            exact ih L1 hlen1 (fun e he => hnd' e (List.mem_filter.mp (hL1 ▸ he)).1)

theorem applyOps_idem (s l : List Doc) (hnd : ∀ d ∈ l, (keysOf d).Nodup) :
    applyOps (applyOps s l) l = applyOps s l := by
  induction s generalizing l with
  | nil => exact applyOps_nil_idem l.length l (le_refl _) hnd
  | cons x t ih =>
      rw [applyOps_cons x t l hnd]
      set U : Doc := (l.filter (fun e => clsOf e == clsOf x)).flatten with hU
      set L2 : List Doc := l.filter (fun e => !(clsOf e == clsOf x)) with hL2
      have hsame : ∀ e ∈ l.filter (fun e => clsOf e == clsOf x),
          clsOf e = clsOf x ∧ (keysOf e).Nodup := by
        intro e he
        have hm := List.mem_filter.mp he
        exact ⟨by have := hm.2; rwa [beq_iff_eq] at this, hnd e hm.1⟩
      have hclsU : clsOf (applyAll x U) = clsOf x := by
        rw [hU]
        exact clsOf_applyAll_join x _ hsame
      rw [applyOps_cons (applyAll x U) (applyOps t L2) l hnd]
      rw [hclsU, ← hU, ← hL2]
      congr 1
      · exact applyAll_applyAll_self x U
      · exact ih L2 (fun e he => hnd e (List.mem_filter.mp (hL2 ▸ he)).1)

theorem cls_mem_upsertDoc (s : List Doc) (d : Doc) (hnd : (keysOf d).Nodup) :
    ∃ m ∈ upsertDoc s d, clsOf m = clsOf d := by
  induction s with
  | nil =>
      exact ⟨applyAll [(promptKey, clsOf d)] d, List.mem_singleton_self _,
        clsOf_upsertInit d hnd⟩
  | cons x t ih =>
      by_cases hx : clsOf x == clsOf d
      · refine ⟨applyAll x d, ?_, ?_⟩
        · simp [upsertDoc, hx]
        · rw [beq_iff_eq] at hx
          rw [clsOf_applyAll_of_same x d hnd hx.symm, hx]
      · obtain ⟨m, hm, hc⟩ := ih
        refine ⟨m, ?_, hc⟩
        simp only [upsertDoc, hx, if_neg, Bool.not_eq_true]
        simp only [Bool.not_eq_true] at hx
        simp [hx, List.mem_cons, hm]

theorem cls_mem_upsertDoc_mono (s : List Doc) (d : Doc) (c : Value)
    (hnd : (keysOf d).Nodup) (h : ∃ m ∈ s, clsOf m = c) :
    ∃ m ∈ upsertDoc s d, clsOf m = c := by
  induction s with
  | nil => simp at h
  | cons x t ih =>
      obtain ⟨m, hm, hc⟩ := h
      by_cases hx : clsOf x == clsOf d
      · rcases List.mem_cons.mp hm with rfl | hmt
        · refine ⟨applyAll m d, ?_, ?_⟩
          · simp [upsertDoc, hx]
          · rw [beq_iff_eq] at hx
            rw [clsOf_applyAll_of_same m d hnd hx.symm, hc]
        · refine ⟨m, ?_, hc⟩
          simp [upsertDoc, hx, List.mem_cons, hmt]
      · rcases List.mem_cons.mp hm with rfl | hmt
        · refine ⟨m, ?_, hc⟩
          simp only [Bool.not_eq_true] at hx
          simp [upsertDoc, hx]
        · obtain ⟨m', hm', hc'⟩ := ih ⟨m, hmt, hc⟩
          refine ⟨m', ?_, hc'⟩
          simp only [Bool.not_eq_true] at hx
          simp [upsertDoc, hx, List.mem_cons, hm']

theorem cls_mem_applyOps_mono (s : List Doc) (l : List Doc) (c : Value)
    (hnd : ∀ d ∈ l, (keysOf d).Nodup) (h : ∃ m ∈ s, clsOf m = c) :
    ∃ m ∈ applyOps s l, clsOf m = c := by
  induction l generalizing s with
  | nil => simpa [applyOps] using h
  | cons d l' ih =>
      have : applyOps s (d :: l') = applyOps (upsertDoc s d) l' := rfl
      rw [this]
      exact ih (upsertDoc s d) (fun e he => hnd e (List.mem_cons_of_mem d he))
        (cls_mem_upsertDoc_mono s d c (hnd d (List.mem_cons_self d l')) h)

theorem cls_mem_applyOps (s : List Doc) (l : List Doc)
    (hnd : ∀ d ∈ l, (keysOf d).Nodup) :
    ∀ d ∈ l, ∃ m ∈ applyOps s l, clsOf m = clsOf d := by
  induction l generalizing s with
  | nil => intro d hd; simp at hd
  | cons e l' ih =>
      intro d hd
      have hfold : applyOps s (e :: l') = applyOps (upsertDoc s e) l' := rfl
      have hnd' : ∀ x ∈ l', (keysOf x).Nodup :=
        fun x hx => hnd x (List.mem_cons_of_mem e hx)
      rcases List.mem_cons.mp hd with rfl | hdl
      · rw [hfold]
        exact cls_mem_applyOps_mono (upsertDoc s d) l' (clsOf d) hnd'
          (cls_mem_upsertDoc s d (hnd d (List.mem_cons_self d l')))
      · rw [hfold]
        exact ih (upsertDoc s e) hnd' d hdl

theorem firstMatch_cls (s : List Doc) (c : Value) (x : Doc)
    (h : firstMatch s c = some x) : clsOf x = c := by
  induction s with
  | nil => simp [firstMatch] at h
  | cons y t ih =>
      by_cases hy : clsOf y == c
      · simp only [firstMatch, hy, if_pos] at h
        obtain rfl : y = x := by injection h
        rwa [beq_iff_eq] at hy
      · simp only [firstMatch, hy] at h
        simp only [Bool.not_eq_true] at hy
        exact ih (by simpa [hy] using h)

theorem applyAll_firstMatch_mem_upsertDoc (s : List Doc) (d : Doc) (x : Doc)
    (h : firstMatch s (clsOf d) = some x) : applyAll x d ∈ upsertDoc s d := by
  induction s with
  | nil => simp [firstMatch] at h
  | cons y t ih =>
      by_cases hy : clsOf y == clsOf d
      · simp only [firstMatch, hy, if_pos] at h
        obtain rfl : y = x := by injection h
        simp [upsertDoc, hy]
      · simp only [firstMatch, hy] at h
        simp only [Bool.not_eq_true] at hy
        have := ih (by simpa [hy] using h)
        simp [upsertDoc, hy, List.mem_cons, this]

theorem upsertInit_mem_upsertDoc (s : List Doc) (d : Doc)
    (h : firstMatch s (clsOf d) = none) :
    applyAll [(promptKey, clsOf d)] d ∈ upsertDoc s d := by
  induction s with
  | nil => simp [upsertDoc]
  | cons y t ih =>
      by_cases hy : clsOf y == clsOf d
      · simp [firstMatch, hy] at h
      · simp only [firstMatch, hy] at h
        simp only [Bool.not_eq_true] at hy
        have := ih (by simpa [hy] using h)
        simp [upsertDoc, hy, List.mem_cons, this]

theorem mem_ids_upsertMD (s : List MDoc) (p : String) (pm : Option ParentMember)
    (dm : List Doc) (now : Nat) (a : Option String)
    (h : a ∈ s.map MDoc.parentMemberId) :
    a ∈ (upsertMD s p pm dm now).map MDoc.parentMemberId := by
  induction s with
  | nil => simp at h
  | cons x t ih =>
      by_cases hx : x.parentMemberId == some p
      · simp only [List.map_cons, List.mem_cons] at h
        rcases h with rfl | ht
        · rw [beq_iff_eq] at hx
          simp [upsertMD, beq_iff_eq.mpr hx, hx]
        · simp [upsertMD, hx, List.mem_cons, ht]
      · simp only [List.map_cons, List.mem_cons] at h
        simp only [Bool.not_eq_true] at hx
        rcases h with rfl | ht
        · simp [upsertMD, hx]
        · simp [upsertMD, hx, List.mem_cons, ih ht]

theorem p_mem_ids_upsertMD (s : List MDoc) (p : String) (pm : Option ParentMember)
    (dm : List Doc) (now : Nat) :
    some p ∈ (upsertMD s p pm dm now).map MDoc.parentMemberId := by
  induction s with
  | nil => simp [upsertMD]
  | cons x t ih =>
      by_cases hx : x.parentMemberId == some p
      · simp [upsertMD, hx]
      · simp only [Bool.not_eq_true] at hx
        simp [upsertMD, hx, List.mem_cons, ih]

theorem mem_ids_stepMD (now : Nat) (s : List MDoc) (r : SRecord) (a : Option String)
    (h : a ∈ s.map MDoc.parentMemberId) :
    a ∈ (stepMD now s r).map MDoc.parentMemberId := by
  unfold stepMD
  cases ridOf r with
  | some p => exact mem_ids_upsertMD s p _ _ now a h
  | none => exact h

theorem mem_ids_runOps (now : Nat) (s : List MDoc) (l : List SRecord) (a : Option String)
    (h : a ∈ s.map MDoc.parentMemberId) :
    a ∈ (runOps now s l).map MDoc.parentMemberId := by
  induction l generalizing s with
  | nil => exact h
  | cons r l' ih =>
      have : runOps now s (r :: l') = runOps now (stepMD now s r) l' := rfl
      rw [this]
      exact ih (stepMD now s r) (mem_ids_stepMD now s r a h)

theorem pid_present_runOps (now : Nat) (s : List MDoc) (l : List SRecord)
    (p : String) (hp : p ∈ l.filterMap ridOf) :
    some p ∈ (runOps now s l).map MDoc.parentMemberId := by
  induction l generalizing s with
  | nil => simp at hp
  | cons r l' ih =>
      have hfold : runOps now s (r :: l') = runOps now (stepMD now s r) l' := rfl
      rw [hfold]
      cases hr : ridOf r with
      | some q =>
          rw [List.filterMap_cons, hr] at hp
          rcases List.mem_cons.mp hp with rfl | hp'
          · apply mem_ids_runOps
            unfold stepMD
            rw [hr]
            exact p_mem_ids_upsertMD s p _ _ now
          · exact ih (stepMD now s r) hp'
      | none =>
          rw [List.filterMap_cons, hr] at hp
          exact ih (stepMD now s r) hp

/-- C1: for every batch with at least one resolvable `parentMemberId`, the
reconciliation call succeeds and afterwards the set of `parentMemberId`
values present in the collection equals exactly the set of resolvable
`parentMemberId` values of the batch: every stored document whose key is
absent from the batch was deleted, and every valid key of the batch is
present. -/
theorem c1_reconciliation_completeness (now : Nat) (store : List MDoc)
    (l : List SRecord) (hne : l.filterMap ridOf ≠ []) :
    (∃ u dc, (syncMemberDependencies now store (some l)).1 = MResp.ok u dc) ∧
    ∀ p : String,
      (∃ m ∈ (syncMemberDependencies now store (some l)).2.1,
        m.parentMemberId = some p) ↔ p ∈ l.filterMap ridOf := by
  have hl : l.isEmpty = false := by
    cases l with
    | nil => simp at hne
    | cons a t => rfl
  have hpids : (l.filterMap ridOf).isEmpty = false := by
    cases hc : l.filterMap ridOf with
    | nil => exact absurd hc hne
    | cons a t => rfl
  simp only [syncMemberDependencies, hl, hpids, Bool.false_eq_true, if_false]
  constructor
  · exact ⟨_, _, rfl⟩
  · intro p
    constructor
    · rintro ⟨m, hm, hid⟩
      have hmem := List.mem_filter.mp hm
      have hk := hmem.2
      simp only [keptByNin, hid] at hk
      simpa using hk
    · intro hp
      obtain ⟨m, hm, hid⟩ := List.mem_map.mp (pid_present_runOps now store l p hp)
      refine ⟨m, List.mem_filter.mpr ⟨hm, ?_⟩, hid⟩
      simp only [keptByNin, hid]
      simpa using hp

/-- C1 witness: a concrete batch with one resolvable parent id applied to a
store that contains a stale document. -/
theorem c1_reconciliation_completeness_witness :
    ([⟨some ⟨some "P1", []⟩, none⟩] : List SRecord).filterMap ridOf ≠ [] ∧
    ((∃ u dc, (syncMemberDependencies 0 [⟨some "P2", none, none, none, []⟩]
        (some [⟨some ⟨some "P1", []⟩, none⟩])).1 = MResp.ok u dc) ∧
      ∀ p : String,
        (∃ m ∈ (syncMemberDependencies 0 [⟨some "P2", none, none, none, []⟩]
            (some [⟨some ⟨some "P1", []⟩, none⟩])).2.1,
          m.parentMemberId = some p) ↔
          p ∈ ([⟨some ⟨some "P1", []⟩, none⟩] : List SRecord).filterMap ridOf) :=
  ⟨by decide, c1_reconciliation_completeness 0 _ _ (by decide)⟩

/-- C5: a reconciliation batch with no resolvable `parentMemberId` is
rejected as a client error; only a connect and a close are issued — no
write and no delete — and the collection is left untouched. -/
theorem c5_destructive_empty_guard (now : Nat) (store : List MDoc)
    (l : List SRecord) (hne : l ≠ []) (hids : l.filterMap ridOf = []) :
    syncMemberDependencies now store (some l) =
      (MResp.clientError, store, [Call.connect, Call.close]) := by
  have hl : l.isEmpty = false := by
    cases l with
    | nil => exact absurd rfl hne
    | cons a t => rfl
  simp [syncMemberDependencies, hl, hids]

/-- C5 witness: a non-empty batch whose single record has no resolvable
parent id leaves a non-empty store untouched. -/
theorem c5_destructive_empty_guard_witness :
    ([(⟨none, none⟩ : SRecord)] ≠ []) ∧
    ([(⟨none, none⟩ : SRecord)].filterMap ridOf = []) ∧
    syncMemberDependencies 7 [⟨some "P9", none, none, none, []⟩]
        (some [⟨none, none⟩]) =
      (MResp.clientError, [⟨some "P9", none, none, none, []⟩],
        [Call.connect, Call.close]) :=
  ⟨by decide, by decide, c5_destructive_empty_guard 7 _ _ (by decide) (by decide)⟩

/-- C6: an empty-array or non-array payload to either sync endpoint is
rejected as a client error with zero store calls — no connect, write or
delete — and the store state unchanged. -/
theorem c6_empty_batch_rejection (storeP : List Doc) (storeM : List MDoc)
    (now : Nat) (pf : Option (List Doc)) (pm : Option (List SRecord))
    (hf : pf = none ∨ pf = some []) (hm : pm = none ∨ pm = some []) :
    syncPromptVersions storeP pf = (PResp.clientError, storeP, []) ∧
    syncMemberDependencies now storeM pm = (MResp.clientError, storeM, []) := by
  constructor
  · rcases hf with rfl | rfl <;> rfl
  · rcases hm with rfl | rfl <;> rfl

/-- C6 witness: both endpoints at both degenerate payloads over non-empty
stores. -/
theorem c6_empty_batch_rejection_witness :
    ((some [] : Option (List Doc)) = none ∨ (some [] : Option (List Doc)) = some []) ∧
    ((none : Option (List SRecord)) = none ∨ (none : Option (List SRecord)) = some []) ∧
    (syncPromptVersions [[("a", Value.int 1)]] (some []) =
      (PResp.clientError, [[("a", Value.int 1)]], []) ∧
     syncMemberDependencies 3 [⟨some "P1", none, none, none, []⟩] none =
      (MResp.clientError, [⟨some "P1", none, none, none, []⟩], [])) :=
  ⟨Or.inr rfl, Or.inl rfl,
    c6_empty_batch_rejection _ _ 3 (some []) none (Or.inr rfl) (Or.inl rfl)⟩

theorem mapGet_mapSet_self (m : List (Value × Doc)) (k : Value) (d : Doc) :
    mapGet (mapSet m k d) k = some d := by
  induction m with
  | nil => simp [mapSet, mapGet]
  | cons he t ih =>
      obtain ⟨g, e⟩ := he
      by_cases hg : g == k
      · simp [mapSet, mapGet, hg]
      · simp [mapSet, mapGet, hg, ih]

theorem mapGet_mapSet_other (m : List (Value × Doc)) (k v : Value) (d : Doc)
    (h : ¬ v = k) :
    mapGet (mapSet m k d) v = mapGet m v := by
  have hkv : (k == v) = false := by
    rw [Bool.eq_false_iff]
    intro hq
    rw [beq_iff_eq] at hq
    exact h hq.symm
  induction m with
  | nil => simp [mapSet, mapGet, hkv]
  | cons he t ih =>
      obtain ⟨g, e⟩ := he
      by_cases hg : g == k
      · rw [beq_iff_eq] at hg
        subst hg
        simp [mapSet, mapGet, hkv]
      · by_cases hgv : g == v
        · simp [mapSet, mapGet, hg, hgv]
        · simp [mapSet, mapGet, hg, hgv, ih]

theorem mapGet_dedupStep_ne (m : List (Value × Doc)) (d : Doc) (v : Value)
    (h : ¬ getField d depKey = some v) :
    mapGet (dedupStep m d) v = mapGet m v := by
  unfold dedupStep
  cases hg : getField d depKey with
  | none => rfl
  | some w =>
      by_cases ht : truthyV w
      · simp only [ht, if_pos]
        apply mapGet_mapSet_other
        intro hv
        exact h (by rw [hg, hv])
      · simp [ht]

theorem mapGet_fold_free (ds : List Doc) (m : List (Value × Doc)) (v : Value)
    (h : ∀ d ∈ ds, ¬ getField d depKey = some v) :
    mapGet (ds.foldl dedupStep m) v = mapGet m v := by
  induction ds generalizing m with
  | nil => rfl
  | cons d ds' ih =>
      rw [List.foldl_cons,
        ih (dedupStep m d) (fun e he => h e (List.mem_cons_of_mem d he)),
        mapGet_dedupStep_ne m d v (h d (List.mem_cons_self d ds'))]

theorem mapGet_dedupStep_self (m : List (Value × Doc)) (d : Doc) (v : Value)
    (hg : getField d depKey = some v) (ht : truthyV v = true) :
    mapGet (dedupStep m d) v = some d := by
  unfold dedupStep
  rw [hg]
  simp [ht, mapGet_mapSet_self]

theorem mapWF_mapSet (m : List (Value × Doc)) (k : Value) (d : Doc)
    (hwf : ∀ e ∈ m, getField e.2 depKey = some e.1 ∧ truthyV e.1 = true)
    (hd : getField d depKey = some k) (ht : truthyV k = true) :
    ∀ e ∈ mapSet m k d, getField e.2 depKey = some e.1 ∧ truthyV e.1 = true := by
  induction m with
  | nil =>
      intro e he
      simp only [mapSet, List.mem_singleton] at he
      subst he
      exact ⟨hd, ht⟩
  | cons he0 t ih =>
      obtain ⟨g, e0⟩ := he0
      intro e he
      by_cases hg : g == k
      · simp only [mapSet, hg, if_pos, List.mem_cons] at he
        rcases he with rfl | het
        · exact ⟨hd, ht⟩
        · exact hwf e (List.mem_cons_of_mem _ het)
      · simp only [mapSet, hg, if_neg, Bool.not_eq_true, List.mem_cons] at he
        rcases he with rfl | het
        · exact hwf (g, e0) (List.mem_cons_self _ _)
        · exact ih (fun x hx => hwf x (List.mem_cons_of_mem _ hx)) e het

theorem mem_fst_mapSet (m : List (Value × Doc)) (k : Value) (d : Doc) (a : Value)
    (h : a ∈ (mapSet m k d).map Prod.fst) : a ∈ m.map Prod.fst ∨ a = k := by
  induction m with
  | nil =>
      simp only [mapSet, List.map_cons, List.map_nil, List.mem_singleton] at h
      exact Or.inr h
  | cons he0 t ih =>
      obtain ⟨g, e0⟩ := he0
      by_cases hg : g == k
      · simp only [mapSet, hg, if_pos, List.map_cons, List.mem_cons] at h
        rcases h with rfl | ht
        · exact Or.inr rfl
        · exact Or.inl (by simp [List.mem_cons, ht])
      · simp only [mapSet, hg, if_neg, Bool.not_eq_true] at h
        simp only [Bool.not_eq_true] at hg
        simp only [hg, List.map_cons, List.mem_cons] at h
        rcases h with rfl | ht
        · exact Or.inl (by simp)
        · rcases ih ht with h1 | h2
          · exact Or.inl (by simp [List.mem_cons, h1])
          · exact Or.inr h2

theorem nodup_fst_mapSet (m : List (Value × Doc)) (k : Value) (d : Doc)
    (h : (m.map Prod.fst).Nodup) : ((mapSet m k d).map Prod.fst).Nodup := by
  induction m with
  | nil => simp [mapSet]
  | cons he0 t ih =>
      obtain ⟨g, e0⟩ := he0
      simp only [List.map_cons, List.nodup_cons] at h
      by_cases hg : g == k
      · rw [beq_iff_eq] at hg
        subst hg
        simp only [mapSet, beq_self_eq_true, if_pos, List.map_cons, List.nodup_cons]
        exact h
      · simp only [mapSet, hg, if_neg, Bool.not_eq_true]
        simp only [Bool.not_eq_true] at hg
        simp only [hg, List.map_cons, List.nodup_cons]
        refine ⟨?_, ih h.2⟩
        intro hmem
        rcases mem_fst_mapSet t k d g hmem with h1 | h2
        · exact h.1 h1
        · subst h2
          simp at hg

theorem fold_mapWF (ds : List Doc) (m : List (Value × Doc))
    (h : ∀ e ∈ m, getField e.2 depKey = some e.1 ∧ truthyV e.1 = true) :
    ∀ e ∈ ds.foldl dedupStep m,
      getField e.2 depKey = some e.1 ∧ truthyV e.1 = true := by
  induction ds generalizing m with
  | nil => exact h
  | cons d ds' ih =>
      rw [List.foldl_cons]
      apply ih
      unfold dedupStep
      cases hg : getField d depKey with
      | none => exact h
      | some w =>
          by_cases ht : truthyV w
          · simp only [ht, if_pos]
            exact mapWF_mapSet m w d h hg ht
          · simpa [ht] using h

theorem fold_nodup_fst (ds : List Doc) (m : List (Value × Doc))
    (h : (m.map Prod.fst).Nodup) :
    ((ds.foldl dedupStep m).map Prod.fst).Nodup := by
  induction ds generalizing m with
  | nil => exact h
  | cons d ds' ih =>
      rw [List.foldl_cons]
      apply ih
      unfold dedupStep
      cases hg : getField d depKey with
      | none => exact h
      | some w =>
          by_cases ht : truthyV w
          · simp only [ht, if_pos]
            exact nodup_fst_mapSet m w d h
          · simpa [ht] using h

theorem map_snd_filter_eq (m : List (Value × Doc)) (v : Value)
    (hwf : ∀ e ∈ m, getField e.2 depKey = some e.1 ∧ truthyV e.1 = true)
    (hnd : (m.map Prod.fst).Nodup) :
    (m.map Prod.snd).filter (fun e => getField e depKey == some v) =
      (match mapGet m v with | some d => [d] | none => []) := by
  induction m with
  | nil => rfl
  | cons he0 t ih =>
      obtain ⟨k, e⟩ := he0
      have hke : getField e depKey = some k := (hwf (k, e) (List.mem_cons_self _ _)).1
      simp only [List.map_cons, List.nodup_cons] at hnd
      by_cases hkv : k == v
      · rw [beq_iff_eq] at hkv
        subst hkv
        have hpred : (getField e depKey == some k) = true := by
          rw [hke]
          exact beq_self_eq_true _
        have htail : (t.map Prod.snd).filter
            (fun x => getField x depKey == some k) = [] := by
          rw [List.filter_eq_nil_iff]
          intro x hx
          obtain ⟨⟨k', e'⟩, hkt, rfl⟩ := List.mem_map.mp hx
          have hk' : getField e' depKey = some k' :=
            (hwf (k', e') (List.mem_cons_of_mem _ hkt)).1
          have hkk : ¬ k' = k := by
            intro hq
            subst hq
            exact hnd.1 (List.mem_map.mpr ⟨(k', e'), hkt, rfl⟩)
          simp [hk', hkk]
        simp only [List.map_cons, List.filter_cons, hpred, if_pos, htail,
          mapGet, beq_self_eq_true]
      · have hpred : (getField e depKey == some v) = false := by
          rw [hke, Bool.eq_false_iff]
          intro hq
          rw [beq_iff_eq] at hq hkv
          exact hkv (by injection hq)
        simp only [List.map_cons, List.filter_cons, hpred, Bool.false_eq_true,
          if_false, mapGet, hkv]
        exact ih (fun x hx => hwf x (List.mem_cons_of_mem _ hx)) hnd.2

theorem dedupStep_eq_mapSet (m : List (Value × Doc)) (d : Doc) (v : Value)
    (hg : getField d depKey = some v) (ht : truthyV v = true) :
    dedupStep m d = mapSet m v d := by
  unfold dedupStep
  rw [hg]
  simp [ht]

theorem uniqueDependents_filter_last (a b c : List Doc) (d₁ d₂ : Doc) (v : Value)
    (ht : truthyV v = true)
    (h1 : getField d₁ depKey = some v) (h2 : getField d₂ depKey = some v)
    (_ha : ∀ d ∈ a, ¬ getField d depKey = some v)
    (_hb : ∀ d ∈ b, ¬ getField d depKey = some v)
    (hc : ∀ d ∈ c, ¬ getField d depKey = some v) :
    (uniqueDependents (a ++ d₁ :: (b ++ d₂ :: c))).filter
      (fun e => getField e depKey == some v) = [d₂] := by
  unfold uniqueDependents
  have hfold : (a ++ d₁ :: (b ++ d₂ :: c)).foldl dedupStep [] =
      c.foldl dedupStep
        (dedupStep (b.foldl dedupStep (dedupStep (a.foldl dedupStep []) d₁)) d₂) := by
    rw [List.foldl_append, List.foldl_cons, List.foldl_append, List.foldl_cons]
  rw [hfold]
  set mfin := c.foldl dedupStep
    (dedupStep (b.foldl dedupStep (dedupStep (a.foldl dedupStep []) d₁)) d₂) with hmfin
  have hwf : ∀ e ∈ mfin, getField e.2 depKey = some e.1 ∧ truthyV e.1 = true := by
    rw [hmfin, dedupStep_eq_mapSet _ d₂ v h2 ht, dedupStep_eq_mapSet _ d₁ v h1 ht]
    apply fold_mapWF
    apply mapWF_mapSet _ v d₂ _ h2 ht
    apply fold_mapWF
    apply mapWF_mapSet _ v d₁ _ h1 ht
    apply fold_mapWF
    intro e he
    simp at he
  have hnd : (mfin.map Prod.fst).Nodup := by
    rw [hmfin, dedupStep_eq_mapSet _ d₂ v h2 ht, dedupStep_eq_mapSet _ d₁ v h1 ht]
    apply fold_nodup_fst
    apply nodup_fst_mapSet
    apply fold_nodup_fst
    apply nodup_fst_mapSet
    apply fold_nodup_fst
    simp
  rw [map_snd_filter_eq mfin v hwf hnd]
  have hget : mapGet mfin v = some d₂ := by
    rw [hmfin, mapGet_fold_free c _ v hc]
    exact mapGet_dedupStep_self _ d₂ v h2 ht
  rw [hget]

theorem dedupStep_keyless (m : List (Value × Doc)) (d : Doc)
    (h : (match getField d depKey with
          | some v => truthyV v
          | none => false) = false) :
    dedupStep m d = m := by
  unfold dedupStep
  cases hg : getField d depKey with
  | none => rfl
  | some w =>
      rw [hg] at h
      simp only [] at h
      simp [h]

theorem uniqueDependents_eq_filter_keyed (ds : List Doc) :
    uniqueDependents ds = uniqueDependents (ds.filter (fun d =>
      match getField d depKey with
      | some v => truthyV v
      | none => false)) := by
  unfold uniqueDependents
  congr 1
  generalize hm : ([] : List (Value × Doc)) = m
  clear hm
  induction ds generalizing m with
  | nil => rfl
  | cons d ds' ih =>
      by_cases hd : (match getField d depKey with
          | some v => truthyV v
          | none => false) = true
      · simp only [List.filter_cons, hd, if_pos, List.foldl_cons]
        exact ih (dedupStep m d)
      · rw [Bool.not_eq_true] at hd
        simp only [List.filter_cons, hd, Bool.false_eq_true, if_false,
          List.foldl_cons, dedupStep_keyless m d hd]
        exact ih m

theorem mem_uniqueDependents_keyed (ds : List Doc) :
    ∀ d ∈ uniqueDependents ds,
      ∃ v, getField d depKey = some v ∧ truthyV v = true := by
  intro d hd
  unfold uniqueDependents at hd
  obtain ⟨⟨k, e⟩, hke, rfl⟩ := List.mem_map.mp hd
  have := fold_mapWF ds [] (by simp) (k, e) hke
  exact ⟨k, this.1, this.2⟩

/-- C3 counterexample: a dependent entry lacking a `memberDependencyId` is
dropped by the deduplication, not preserved: the stored list for a record
with one keyless dependent is empty. -/
theorem c3_counterexample :
    uniqueDependents [[("note", Value.str "n")]] = [] ∧
    uniqueDependents [[("note", Value.str "n")]] ≠ [[("note", Value.str "n")]] := by
  constructor
  · rfl
  · decide

/-- C3 amended: dependent entries lacking a truthy `memberDependencyId` are
discarded by the deduplication rather than preserved — removing them from
the input does not change the result, and every stored dependent entry
carries a truthy `memberDependencyId`. -/
theorem c3_keyless_dropped (ds : List Doc) :
    uniqueDependents ds = uniqueDependents (ds.filter (fun d =>
      match getField d depKey with
      | some v => truthyV v
      | none => false)) ∧
    ∀ d ∈ uniqueDependents ds,
      ∃ v, getField d depKey = some v ∧ truthyV v = true :=
  ⟨uniqueDependents_eq_filter_keyed ds, mem_uniqueDependents_keyed ds⟩

theorem upsertMD_other_keeps {P : MDoc → Prop} (s : List MDoc) (q : String)
    (pm : Option ParentMember) (dm : List Doc) (now : Nat) (p : String)
    (hqp : ¬ q = p) (h : ∀ m ∈ s, m.parentMemberId = some p → P m) :
    ∀ m ∈ upsertMD s q pm dm now, m.parentMemberId = some p → P m := by
  induction s with
  | nil =>
      intro m hm hid
      simp only [upsertMD, List.mem_singleton] at hm
      subst hm
      simp only at hid
      exact absurd (by injection hid) hqp
  | cons x t ih =>
      intro m hm hid
      by_cases hx : x.parentMemberId == some q
      · simp only [upsertMD, hx, if_pos, List.mem_cons] at hm
        rcases hm with rfl | hmt
        · simp only at hid
          exact absurd (by injection hid) hqp
        · exact h m (List.mem_cons_of_mem x hmt) hid
      · simp only [upsertMD, hx, if_neg, Bool.not_eq_true, List.mem_cons] at hm
        rcases hm with rfl | hmt
        · exact h m (List.mem_cons_self _ _) hid
        · exact ih (fun y hy => h y (List.mem_cons_of_mem x hy)) m hmt hid

theorem stepMD_other_keeps {P : MDoc → Prop} (now : Nat) (s : List MDoc)
    (r : SRecord) (p : String) (hr : ¬ ridOf r = some p)
    (h : ∀ m ∈ s, m.parentMemberId = some p → P m) :
    ∀ m ∈ stepMD now s r, m.parentMemberId = some p → P m := by
  unfold stepMD
  cases hq : ridOf r with
  | some q =>
      apply upsertMD_other_keeps
      · intro hc
        subst hc
        exact hr hq
      · exact h
  | none => exact h

theorem runOps_keeps {P : MDoc → Prop} (now : Nat) (s : List MDoc)
    (l : List SRecord) (p : String) (hl : ∀ r ∈ l, ¬ ridOf r = some p)
    (h : ∀ m ∈ s, m.parentMemberId = some p → P m) :
    ∀ m ∈ runOps now s l, m.parentMemberId = some p → P m := by
  induction l generalizing s with
  | nil => exact h
  | cons r l' ih =>
      have hfold : runOps now s (r :: l') = runOps now (stepMD now s r) l' := rfl
      rw [hfold]
      exact ih (stepMD now s r)
        (fun x hx => hl x (List.mem_cons_of_mem r hx))
        (stepMD_other_keeps now s r p (hl r (List.mem_cons_self r l')) h)

theorem pCount_upsertMD_other (s : List MDoc) (q : String)
    (pm : Option ParentMember) (dm : List Doc) (now : Nat) (p : String)
    (hqp : ¬ q = p) : pCount p (upsertMD s q pm dm now) = pCount p s := by
  have hqp' : ((some q : Option String) == some p) = false := by
    rw [Bool.eq_false_iff]
    intro hq
    rw [beq_iff_eq] at hq
    exact hqp (by injection hq)
  induction s with
  | nil => simp [upsertMD, pCount, hqp']
  | cons x t ih =>
      by_cases hx : x.parentMemberId == some q
      · have hxp : (x.parentMemberId == some p) = false := by
          rw [beq_iff_eq] at hx
          rw [hx]
          exact hqp'
        simp [upsertMD, hx, pCount, List.filter_cons, hxp, hqp']
      · simp only [Bool.not_eq_true] at hx
        simp only [upsertMD, hx, Bool.false_eq_true, if_false]
        simp only [pCount, List.filter_cons] at ih ⊢
        by_cases hxp : x.parentMemberId == some p
        · simp [hxp, ih]
        · simp [hxp, ih]

theorem pCount_stepMD_other (now : Nat) (s : List MDoc) (r : SRecord)
    (p : String) (hr : ¬ ridOf r = some p) :
    pCount p (stepMD now s r) = pCount p s := by
  unfold stepMD
  cases hq : ridOf r with
  | some q =>
      apply pCount_upsertMD_other
      intro hc
      subst hc
      exact hr hq
  | none => rfl

theorem pCount_runOps_other (now : Nat) (s : List MDoc) (l : List SRecord)
    (p : String) (hl : ∀ r ∈ l, ¬ ridOf r = some p) :
    pCount p (runOps now s l) = pCount p s := by
  induction l generalizing s with
  | nil => rfl
  | cons r l' ih =>
      have hfold : runOps now s (r :: l') = runOps now (stepMD now s r) l' := rfl
      rw [hfold, ih (stepMD now s r) (fun x hx => hl x (List.mem_cons_of_mem r hx)),
        pCount_stepMD_other now s r p (hl r (List.mem_cons_self r l'))]

theorem pCount_zero_no_mem (p : String) (s : List MDoc)
    (h : pCount p s = 0) : ∀ m ∈ s, ¬ m.parentMemberId = some p := by
  intro m hm hid
  unfold pCount at h
  rw [List.length_eq_zero] at h
  have := List.filter_eq_nil_iff.mp h m hm
  rw [hid] at this
  simp at this

theorem upsertMD_self_sets (s : List MDoc) (p : String)
    (pm : Option ParentMember) (dm : List Doc) (now : Nat)
    (hc : pCount p s ≤ 1) :
    ∀ m ∈ upsertMD s p pm dm now, m.parentMemberId = some p →
      m.parentMember = pm ∧ m.dependentMembers = some dm ∧
        m.lastSyncedAt = some now := by
  induction s with
  | nil =>
      intro m hm hid
      simp only [upsertMD, List.mem_singleton] at hm
      subst hm
      exact ⟨rfl, rfl, rfl⟩
  | cons x t ih =>
      intro m hm hid
      by_cases hx : x.parentMemberId == some p
      · simp only [upsertMD, hx, if_pos, List.mem_cons] at hm
        rcases hm with rfl | hmt
        · exact ⟨rfl, rfl, rfl⟩
        · exfalso
          have hone : pCount p (x :: t) = pCount p t + 1 := by
            unfold pCount
            rw [List.filter_cons]
            simp [hx]
          rw [hone] at hc
          have : pCount p t = 0 := by omega
          exact pCount_zero_no_mem p t this m hmt hid
      · simp only [upsertMD, hx, if_neg, Bool.not_eq_true, List.mem_cons] at hm
        rcases hm with rfl | hmt
        · exfalso
          rw [hid] at hx
          simp at hx
        · have hct : pCount p t ≤ 1 := by
            have : pCount p (x :: t) = pCount p t := by
              unfold pCount
              rw [List.filter_cons]
              simp only [Bool.not_eq_true] at hx
              simp [hx]
            rwa [this] at hc
          exact ih hct m hmt hid

theorem runOps_stored_dm (now : Nat) (store : List MDoc)
    (l₁ l₂ : List SRecord) (r : SRecord) (p : String)
    (hr : ridOf r = some p)
    (h₁ : ∀ x ∈ l₁, ¬ ridOf x = some p) (h₂ : ∀ x ∈ l₂, ¬ ridOf x = some p)
    (hcnt : pCount p store ≤ 1) :
    ∀ m ∈ runOps now store (l₁ ++ r :: l₂), m.parentMemberId = some p →
      m.parentMember = r.parentMember ∧
      m.dependentMembers =
        some (uniqueDependents (r.dependentMembers.getD [])) ∧
      m.lastSyncedAt = some now := by
  have hfold : runOps now store (l₁ ++ r :: l₂) =
      runOps now (stepMD now (runOps now store l₁) r) l₂ := by
    unfold runOps
    rw [List.foldl_append, List.foldl_cons]
  rw [hfold]
  have hc1 : pCount p (runOps now store l₁) ≤ 1 := by
    rw [pCount_runOps_other now store l₁ p h₁]
    exact hcnt
  have hstep : ∀ m ∈ stepMD now (runOps now store l₁) r,
      m.parentMemberId = some p →
        m.parentMember = r.parentMember ∧
        m.dependentMembers =
          some (uniqueDependents (r.dependentMembers.getD [])) ∧
        m.lastSyncedAt = some now := by
    unfold stepMD
    rw [hr]
    exact upsertMD_self_sets (runOps now store l₁) p r.parentMember _ now hc1
  exact runOps_keeps now _ l₂ p h₂ hstep

/-- C9: a reconciliation record with a resolvable `parentMemberId` whose
`dependentMembers` is absent, null or not an array is stored (when it is the
only record and stored document for that id) with `dependentMembers` equal
to the empty array: the non-array value is normalized away rather than
stored verbatim or raising an error. -/
theorem c9_non_array_dependents_normalized (now : Nat) (store : List MDoc)
    (l₁ l₂ : List SRecord) (r : SRecord) (p : String)
    (hr : ridOf r = some p) (hdm : r.dependentMembers = none)
    (h₁ : ∀ x ∈ l₁, ¬ ridOf x = some p) (h₂ : ∀ x ∈ l₂, ¬ ridOf x = some p)
    (hcnt : pCount p store ≤ 1) :
    (∃ m ∈ (syncMemberDependencies now store (some (l₁ ++ r :: l₂))).2.1,
      m.parentMemberId = some p) ∧
    ∀ m ∈ (syncMemberDependencies now store (some (l₁ ++ r :: l₂))).2.1,
      m.parentMemberId = some p → m.dependentMembers = some [] := by
  set l := l₁ ++ r :: l₂ with hldef
  have hrl : r ∈ l := by
    rw [hldef]
    exact List.mem_append_right l₁ (List.mem_cons_self r l₂)
  have hp : p ∈ l.filterMap ridOf := List.mem_filterMap.mpr ⟨r, hrl, hr⟩
  have hl : l.isEmpty = false := by
    cases hcl : l with
    | nil => rw [hcl] at hp; simp at hp
    | cons a t => rfl
  have hpids : (l.filterMap ridOf).isEmpty = false := by
    cases hcp : l.filterMap ridOf with
    | nil => rw [hcp] at hp; simp at hp
    | cons a t => rfl
  simp only [syncMemberDependencies, hl, hpids, Bool.false_eq_true, if_false]
  constructor
  · obtain ⟨m, hm, hid⟩ := List.mem_map.mp (pid_present_runOps now store l p hp)
    refine ⟨m, List.mem_filter.mpr ⟨hm, ?_⟩, hid⟩
    simp only [keptByNin, hid]
    simpa using hp
  · intro m hm hid
    have hm1 := (List.mem_filter.mp hm).1
    have := runOps_stored_dm now store l₁ l₂ r p hr h₁ h₂ hcnt m (hldef ▸ hm1) hid
    rw [this.2.1, hdm]
    rfl

/-- C9 witness: a record with a null `dependentMembers` is stored with an
empty dependents array. -/
theorem c9_non_array_dependents_normalized_witness :
    ridOf (⟨some ⟨some "P1", []⟩, none⟩ : SRecord) = some "P1" ∧
    ((∃ m ∈ (syncMemberDependencies 4 [] (some ([] ++ (⟨some ⟨some "P1", []⟩, none⟩ : SRecord) :: []))).2.1,
        m.parentMemberId = some "P1") ∧
      ∀ m ∈ (syncMemberDependencies 4 [] (some ([] ++ (⟨some ⟨some "P1", []⟩, none⟩ : SRecord) :: []))).2.1,
        m.parentMemberId = some "P1" → m.dependentMembers = some []) :=
  ⟨by decide,
    c9_non_array_dependents_normalized 4 [] [] [] _ "P1" (by decide) rfl
      (by intro x hx; simp at hx) (by intro x hx; simp at hx) (by decide)⟩

/-- C2: for a record whose dependents contain exactly two entries with the
same truthy `memberDependencyId` and different content, the stored
`dependentMembers` (for its uniquely-keyed parent) contains exactly one
entry with that id, and it is the later of the two in input order. -/
theorem c2_dedup_last_wins (now : Nat) (store : List MDoc)
    (l₁ l₂ : List SRecord) (r : SRecord) (p : String)
    (a b c : List Doc) (d₁ d₂ : Doc) (v : Value)
    (hr : ridOf r = some p)
    (hds : r.dependentMembers = some (a ++ d₁ :: (b ++ d₂ :: c)))
    (ht : truthyV v = true)
    (hg1 : getField d₁ depKey = some v) (hg2 : getField d₂ depKey = some v)
    (_hdiff : ¬ d₁ = d₂)
    (ha : ∀ d ∈ a, ¬ getField d depKey = some v)
    (hb : ∀ d ∈ b, ¬ getField d depKey = some v)
    (hc : ∀ d ∈ c, ¬ getField d depKey = some v)
    (h₁ : ∀ x ∈ l₁, ¬ ridOf x = some p) (h₂ : ∀ x ∈ l₂, ¬ ridOf x = some p)
    (hcnt : pCount p store ≤ 1) :
    (∃ m ∈ (syncMemberDependencies now store (some (l₁ ++ r :: l₂))).2.1,
      m.parentMemberId = some p) ∧
    ∀ m ∈ (syncMemberDependencies now store (some (l₁ ++ r :: l₂))).2.1,
      m.parentMemberId = some p →
        ∃ dms, m.dependentMembers = some dms ∧
          dms.filter (fun e => getField e depKey == some v) = [d₂] := by
  set l := l₁ ++ r :: l₂ with hldef
  have hrl : r ∈ l := by
    rw [hldef]
    exact List.mem_append_right l₁ (List.mem_cons_self r l₂)
  have hp : p ∈ l.filterMap ridOf := List.mem_filterMap.mpr ⟨r, hrl, hr⟩
  have hl : l.isEmpty = false := by
    cases hcl : l with
    | nil => rw [hcl] at hp; simp at hp
    | cons x t => rfl
  have hpids : (l.filterMap ridOf).isEmpty = false := by
    cases hcp : l.filterMap ridOf with
    | nil => rw [hcp] at hp; simp at hp
    | cons x t => rfl
  simp only [syncMemberDependencies, hl, hpids, Bool.false_eq_true, if_false]
  constructor
  · obtain ⟨m, hm, hid⟩ := List.mem_map.mp (pid_present_runOps now store l p hp)
    refine ⟨m, List.mem_filter.mpr ⟨hm, ?_⟩, hid⟩
    simp only [keptByNin, hid]
    simpa using hp
  · intro m hm hid
    have hm1 := (List.mem_filter.mp hm).1
    have hset := runOps_stored_dm now store l₁ l₂ r p hr h₁ h₂ hcnt m (hldef ▸ hm1) hid
    refine ⟨uniqueDependents (r.dependentMembers.getD []), hset.2.1, ?_⟩
    rw [hds]
    exact uniqueDependents_filter_last a b c d₁ d₂ v ht hg1 hg2 ha hb hc

/-- C2 witness: one record with two dependents sharing id `D1` and
different content; the stored list keeps exactly the second. -/
theorem c2_dedup_last_wins_witness :
    ridOf (⟨some ⟨some "P1", []⟩,
        some [[("memberDependencyId", Value.str "D1"), ("v", Value.int 1)],
              [("memberDependencyId", Value.str "D1"), ("v", Value.int 2)]]⟩ : SRecord) =
      some "P1" ∧
    ¬ ([("memberDependencyId", Value.str "D1"), ("v", Value.int 1)] : Doc) =
        [("memberDependencyId", Value.str "D1"), ("v", Value.int 2)] ∧
    ((∃ m ∈ (syncMemberDependencies 1 []
        (some ([] ++ (⟨some ⟨some "P1", []⟩,
          some [[("memberDependencyId", Value.str "D1"), ("v", Value.int 1)],
                [("memberDependencyId", Value.str "D1"), ("v", Value.int 2)]]⟩ : SRecord) :: []))).2.1,
      m.parentMemberId = some "P1") ∧
    ∀ m ∈ (syncMemberDependencies 1 []
        (some ([] ++ (⟨some ⟨some "P1", []⟩,
          some [[("memberDependencyId", Value.str "D1"), ("v", Value.int 1)],
                [("memberDependencyId", Value.str "D1"), ("v", Value.int 2)]]⟩ : SRecord) :: []))).2.1,
      m.parentMemberId = some "P1" →
        ∃ dms, m.dependentMembers = some dms ∧
          dms.filter (fun e => getField e depKey == some (Value.str "D1")) =
            [[("memberDependencyId", Value.str "D1"), ("v", Value.int 2)]]) :=
  ⟨by decide, by decide,
    c2_dedup_last_wins 1 [] [] []
      ⟨some ⟨some "P1", []⟩,
        some [[("memberDependencyId", Value.str "D1"), ("v", Value.int 1)],
              [("memberDependencyId", Value.str "D1"), ("v", Value.int 2)]]⟩
      "P1" [] [] []
      [("memberDependencyId", Value.str "D1"), ("v", Value.int 1)]
      [("memberDependencyId", Value.str "D1"), ("v", Value.int 2)]
      (Value.str "D1") (by decide) rfl (by decide) (by decide) (by decide)
      (by decide) (by simp) (by simp) (by simp) (by simp) (by simp) (by decide)⟩

/-- C7: the flat upsert is idempotent — for every batch and every initial
store state, applying the sync twice yields exactly the store state of
applying it once: one document per key, no duplicates created. -/
theorem c7_flat_upsert_idempotent (store l : List Doc)
    (hnd : ∀ d ∈ l, (keysOf d).Nodup) :
    (syncPromptVersions (syncPromptVersions store (some l)).2.1 (some l)).2.1 =
      (syncPromptVersions store (some l)).2.1 := by
  by_cases hl : l.isEmpty
  · simp [syncPromptVersions, hl]
  · rw [Bool.not_eq_true] at hl
    simp only [syncPromptVersions, hl, Bool.false_eq_true, if_false]
    exact applyOps_idem store l hnd

/-- C7 witness: a batch with two records sharing a key, applied twice from
the empty store. -/
theorem c7_flat_upsert_idempotent_witness :
    (∀ d ∈ ([[("promptVersionId", Value.str "a"), ("x", Value.int 1)],
             [("promptVersionId", Value.str "a"), ("x", Value.int 2)]] : List Doc),
      (keysOf d).Nodup) ∧
    (syncPromptVersions
        (syncPromptVersions []
          (some [[("promptVersionId", Value.str "a"), ("x", Value.int 1)],
                 [("promptVersionId", Value.str "a"), ("x", Value.int 2)]])).2.1
        (some [[("promptVersionId", Value.str "a"), ("x", Value.int 1)],
               [("promptVersionId", Value.str "a"), ("x", Value.int 2)]])).2.1 =
      (syncPromptVersions []
        (some [[("promptVersionId", Value.str "a"), ("x", Value.int 1)],
               [("promptVersionId", Value.str "a"), ("x", Value.int 2)]])).2.1 :=
  ⟨by decide, c7_flat_upsert_idempotent [] _ (by decide)⟩

/-- C4 counterexample: a one-record batch whose record lacks a
`promptVersionId` is not excluded from the operation set: the call writes a
document for it (under the null id) and reports count 1, where the claim
predicts no write and a count of 0. -/
theorem c4_counterexample :
    (syncPromptVersions [] (some [[("a", Value.int 1)]])).2.1 =
      [[("promptVersionId", Value.null), ("a", Value.int 1)]] ∧
    (syncPromptVersions [] (some [[("a", Value.int 1)]])).1 = PResp.ok 1 := by
  constructor
  · rfl
  · rfl

/-- C4 corrected: the flat sync endpoint performs no identity filtering —
it builds one upsert operation for every record of the payload, including
records lacking a `promptVersionId` (written under the null id class); the
call succeeds and the reported count is the full payload length. -/
theorem c4_no_identity_filter (store l : List Doc) (hne : ¬ l = [])
    (hnd : ∀ d ∈ l, (keysOf d).Nodup) :
    (syncPromptVersions store (some l)).1 = PResp.ok l.length ∧
    (syncPromptVersions store (some l)).2.2 =
      [Call.connect, Call.bulkWrite l.length, Call.close] ∧
    ∀ d ∈ l, ∃ m ∈ (syncPromptVersions store (some l)).2.1, clsOf m = clsOf d := by
  have hl : l.isEmpty = false := by
    cases l with
    | nil => exact absurd rfl hne
    | cons a t => rfl
  simp only [syncPromptVersions, hl, Bool.false_eq_true, if_false]
  exact ⟨trivial, trivial, cls_mem_applyOps store l hnd⟩

/-- C4 witness: a batch mixing a keyed and an id-less record is written
whole, with count 2. -/
theorem c4_no_identity_filter_witness :
    (¬ ([[("promptVersionId", Value.str "a")], [("b", Value.int 1)]] : List Doc) = []) ∧
    ((syncPromptVersions [] (some [[("promptVersionId", Value.str "a")],
        [("b", Value.int 1)]])).1 = PResp.ok 2 ∧
     (syncPromptVersions [] (some [[("promptVersionId", Value.str "a")],
        [("b", Value.int 1)]])).2.2 =
       [Call.connect, Call.bulkWrite 2, Call.close] ∧
     ∀ d ∈ ([[("promptVersionId", Value.str "a")], [("b", Value.int 1)]] : List Doc),
       ∃ m ∈ (syncPromptVersions [] (some [[("promptVersionId", Value.str "a")],
          [("b", Value.int 1)]])).2.1, clsOf m = clsOf d) :=
  ⟨by decide, c4_no_identity_filter [] _ (by decide) (by decide)⟩

/-- C8 counterexample: upserting `{promptVersionId: "v1", b: 2}` over a
stored `{promptVersionId: "v1", old: 5}` leaves `old` in place: the stored
document is the field-wise merge, not the batch's record. -/
theorem c8_counterexample :
    (syncPromptVersions [[("promptVersionId", Value.str "v1"), ("old", Value.int 5)]]
        (some [[("promptVersionId", Value.str "v1"), ("b", Value.int 2)]])).2.1 =
      [[("promptVersionId", Value.str "v1"), ("old", Value.int 5), ("b", Value.int 2)]] ∧
    ¬ (syncPromptVersions [[("promptVersionId", Value.str "v1"), ("old", Value.int 5)]]
        (some [[("promptVersionId", Value.str "v1"), ("b", Value.int 2)]])).2.1 =
      [[("promptVersionId", Value.str "v1"), ("b", Value.int 2)]] := by
  constructor
  · rfl
  · decide

/-- C8 corrected: after a successful flat sync every key of the batch is
present, and the stored document carries every field of the new record with
its new value; but the update is a `$set` field-wise merge, so fields of a
previously stored document absent from the new record survive the upsert. -/
theorem c8_upsert_merges (store l : List Doc) (hne : ¬ l = [])
    (hnd : ∀ d ∈ l, (keysOf d).Nodup) :
    (∀ d ∈ l, ∃ m ∈ (syncPromptVersions store (some l)).2.1, clsOf m = clsOf d) ∧
    ∀ d, l = [d] → ∀ x, firstMatch store (clsOf d) = some x →
      ∃ m ∈ (syncPromptVersions store (some l)).2.1,
        (∀ f v, getField d f = some v → getField m f = some v) ∧
        (∀ f, ¬ f ∈ keysOf d → getField m f = getField x f) := by
  have hl : l.isEmpty = false := by
    cases l with
    | nil => exact absurd rfl hne
    | cons a t => rfl
  simp only [syncPromptVersions, hl, Bool.false_eq_true, if_false]
  constructor
  · exact cls_mem_applyOps store l hnd
  · rintro d rfl x hx
    refine ⟨applyAll x d, applyAll_firstMatch_mem_upsertDoc store d x hx, ?_, ?_⟩
    · intro f v hv
      exact getField_applyAll_of_nodup x d f v (hnd d (List.mem_singleton_self d)) hv
    · intro f hf
      exact getField_applyAll_of_not_mem x d f hf

/-- C8 witness: the merge instance of the counterexample, through the
corrected statement. -/
theorem c8_upsert_merges_witness :
    (¬ ([[("promptVersionId", Value.str "v1"), ("b", Value.int 2)]] : List Doc) = []) ∧
    ((∀ d ∈ ([[("promptVersionId", Value.str "v1"), ("b", Value.int 2)]] : List Doc),
        ∃ m ∈ (syncPromptVersions
          [[("promptVersionId", Value.str "v1"), ("old", Value.int 5)]]
          (some [[("promptVersionId", Value.str "v1"), ("b", Value.int 2)]])).2.1,
          clsOf m = clsOf d) ∧
      ∀ d, ([[("promptVersionId", Value.str "v1"), ("b", Value.int 2)]] : List Doc) = [d] →
        ∀ x, firstMatch [[("promptVersionId", Value.str "v1"), ("old", Value.int 5)]]
            (clsOf d) = some x →
          ∃ m ∈ (syncPromptVersions
            [[("promptVersionId", Value.str "v1"), ("old", Value.int 5)]]
            (some [[("promptVersionId", Value.str "v1"), ("b", Value.int 2)]])).2.1,
            (∀ f v, getField d f = some v → getField m f = some v) ∧
            (∀ f, ¬ f ∈ keysOf d → getField m f = getField x f)) :=
  ⟨by decide, c8_upsert_merges
    [[("promptVersionId", Value.str "v1"), ("old", Value.int 5)]]
    [[("promptVersionId", Value.str "v1"), ("b", Value.int 2)]]
    (by decide) (by decide)⟩

theorem inIds_nil (m : Doc) : inIds m [] = false := by
  unfold inIds
  cases hg : getField m promptKey with
  | none => rfl
  | some v => rfl

/-- C10: the flat delete removes exactly the stored documents whose
`promptVersionId` equals one of the truthy ids of the payload and keeps
every other document unchanged; when the payload has no truthy id, no
delete call is issued at all, and the call succeeds reporting the number of
truthy ids. -/
theorem c10_delete_scoped (store l : List Doc) (hne : ¬ l = []) :
    (deletePromptVersions store (some l)).1 = PResp.ok (truthyIds l).length ∧
    (∀ m, m ∈ (deletePromptVersions store (some l)).2.1 ↔
      (m ∈ store ∧ inIds m (truthyIds l) = false)) ∧
    (truthyIds l = [] →
      (deletePromptVersions store (some l)).2.1 = store ∧
      (deletePromptVersions store (some l)).2.2 = [Call.connect, Call.close]) := by
  have hl : l.isEmpty = false := by
    cases l with
    | nil => exact absurd rfl hne
    | cons a t => rfl
  by_cases hids : (truthyIds l).isEmpty
  · have hnil : truthyIds l = [] := by
      cases hc : truthyIds l with
      | nil => rfl
      | cons a t => rw [hc] at hids; simp at hids
    simp only [deletePromptVersions, hl, Bool.false_eq_true, if_false, hids,
      if_pos]
    refine ⟨trivial, ?_, fun _ => ⟨trivial, trivial⟩⟩
    intro m
    rw [hnil, inIds_nil]
    simp
  · rw [Bool.not_eq_true] at hids
    simp only [deletePromptVersions, hl, Bool.false_eq_true, if_false, hids]
    refine ⟨trivial, ?_, ?_⟩
    · intro m
      rw [List.mem_filter]
      constructor
      · rintro ⟨hm, hp⟩
        exact ⟨hm, by rwa [Bool.not_eq_true'] at hp⟩
      · rintro ⟨hm, hp⟩
        exact ⟨hm, by rwa [Bool.not_eq_true']⟩
    · intro hnil
      rw [hnil] at hids
      simp at hids

/-- C10 witness: deleting one of two stored documents by its id keeps the
other. -/
theorem c10_delete_scoped_witness :
    (¬ ([[("promptVersionId", Value.str "a")]] : List Doc) = []) ∧
    ((deletePromptVersions
        [[("promptVersionId", Value.str "a"), ("k", Value.int 1)],
         [("promptVersionId", Value.str "b")]]
        (some [[("promptVersionId", Value.str "a")]])).1 =
      PResp.ok (truthyIds [[("promptVersionId", Value.str "a")]]).length ∧
     (∀ m, m ∈ (deletePromptVersions
        [[("promptVersionId", Value.str "a"), ("k", Value.int 1)],
         [("promptVersionId", Value.str "b")]]
        (some [[("promptVersionId", Value.str "a")]])).2.1 ↔
       (m ∈ [[("promptVersionId", Value.str "a"), ("k", Value.int 1)],
             [("promptVersionId", Value.str "b")]] ∧
        inIds m (truthyIds [[("promptVersionId", Value.str "a")]]) = false)) ∧
     (truthyIds [[("promptVersionId", Value.str "a")]] = [] →
       (deletePromptVersions
          [[("promptVersionId", Value.str "a"), ("k", Value.int 1)],
           [("promptVersionId", Value.str "b")]]
          (some [[("promptVersionId", Value.str "a")]])).2.1 =
         [[("promptVersionId", Value.str "a"), ("k", Value.int 1)],
          [("promptVersionId", Value.str "b")]] ∧
       (deletePromptVersions
          [[("promptVersionId", Value.str "a"), ("k", Value.int 1)],
           [("promptVersionId", Value.str "b")]]
          (some [[("promptVersionId", Value.str "a")]])).2.2 =
         [Call.connect, Call.close])) :=
  ⟨by decide, c10_delete_scoped
    [[("promptVersionId", Value.str "a"), ("k", Value.int 1)],
     [("promptVersionId", Value.str "b")]]
    [[("promptVersionId", Value.str "a")]] (by decide)⟩

end SfMongo
